import Mathlib

/-!
Verification of the lexical analyzer of `cool-rs` (src/lexer.rs).

The lexer is embedded shallowly: the Rust `Lexer` struct becomes a Lean
structure over `List Char` (the `Chars` iterator), mutation becomes explicit
state passing, and the scanning loops become fuel-indexed structural
recursions (the fuel `size l + 1` always suffices, since every `advance`
on a state with a current character strictly shrinks `size`).
-/

set_option maxHeartbeats 1000000

namespace CoolRs

/-- Token kinds, from `enum TokenType` in src/lexer.rs.  The Rust `i64`
payload of `IntLiteral` is embedded as `Int` (the scanner only ever
produces values in `0 ..= i64::MAX`, guarded by `parseI64`). -/
inductive TokenType where
  | BoolLiteral (b : Bool)
  | Case
  | Class
  | ClassName (s : String)
  | Else
  | Eof
  | Esac
  | Fi
  | Ident (s : String)
  | If
  | In
  | Illegal
  | Inherits
  | IsVoid
  | IntLiteral (n : Int)
  | LBrace
  | Let
  | Loop
  | New
  | Not
  | Of
  | Pool
  | RBrace
  | Semicolon
  | StringLiteral (s : String)
  | Then
  | While
deriving DecidableEq, Repr

/-- Source position, from `struct Pos` in src/lexer.rs. -/
structure Pos where
  offset : Nat
  line : Nat
  col : Nat
deriving DecidableEq, Repr

/-- `Pos::advance` from src/lexer.rs: `offset += 1`; on `'\n'` the line is
incremented and the column reset to 0, otherwise the column is incremented. -/
def Pos.advance (p : Pos) (c : Char) : Pos :=
  if c = '\n' then ⟨p.offset + 1, p.line + 1, 0⟩
  else ⟨p.offset + 1, p.line, p.col + 1⟩

/-- `struct Span` from src/lexer.rs (`end` is a Lean keyword, hence `«end»`). -/
structure Span where
  start : Pos
  «end» : Pos
deriving DecidableEq, Repr

/-- `struct Token` from src/lexer.rs. -/
structure Token where
  token_type : TokenType
  span : Span
deriving DecidableEq, Repr

/-- `enum LexerError` from src/lexer.rs. -/
inductive LexerError where
  | InvalidChar (c : Char)
  | StringConstantTooLong (n : Nat)
  | StringContainsNull
  | StringUnterminated
  | StringContainsEof
  | UnmatchedComment
  | UnterminatedComment
deriving DecidableEq, Repr

/-- Rust `char::is_whitespace`: the Unicode `White_Space` property,
embedded as its full (finite) code-point table. -/
def isRustWhitespace (c : Char) : Bool :=
  let n := c.toNat
  (0x09 ≤ n && n ≤ 0x0D) || n == 0x20 || n == 0x85 || n == 0xA0 ||
  n == 0x1680 || (0x2000 ≤ n && n ≤ 0x200A) || n == 0x2028 || n == 0x2029 ||
  n == 0x202F || n == 0x205F || n == 0x3000

/-- Rust `char::is_alphanumeric` is Unicode-aware; this embedding covers its
ASCII fragment (letters and digits), which is the range all claims below
exercise: every property proved here either uses ASCII inputs only or is
insensitive to how the identifier-continuation test behaves beyond ASCII. -/
def isRustAlphanumeric (c : Char) : Bool :=
  c.isAlpha || c.isDigit

/-- Rust `char::is_uppercase` (Unicode-aware), embedded on its ASCII
fragment, which is the range exercised by the claims below. -/
def isRustUppercase (c : Char) : Bool :=
  c.isUpper

/-- `ident.starts_with(char::is_uppercase)` from src/lexer.rs line 250:
true iff the first character is uppercase (false on the empty string). -/
def firstCharUppercase (s : String) : Bool :=
  match s.data with
  | [] => false
  | c :: _ => isRustUppercase c

/-- `struct Lexer` from src/lexer.rs: the `Chars` iterator becomes the list
of characters not yet handed out, `current` the character about to be
consumed, `peek` the one-slot lookahead buffer. -/
structure Lexer where
  buffer : List Char
  current : Option Char
  pos : Pos
  peek : Option Char
deriving DecidableEq, Repr

namespace Lexer

/-- `Lexer::new` from src/lexer.rs: pull the first character into `current`,
start at position (offset 0, line 1, column 0), empty peek slot. -/
def new (buffer : List Char) : Lexer :=
  match buffer with
  | [] => ⟨[], none, ⟨0, 1, 0⟩, none⟩
  | c :: rest => ⟨rest, some c, ⟨0, 1, 0⟩, none⟩

/-- `Lexer::advance` from src/lexer.rs: return `current`, advance the
position past it, refill `current` from the peek slot if occupied (taking
it), else from the buffer. -/
def advance (l : Lexer) : Option Char × Lexer :=
  let pos := match l.current with
    | some c => l.pos.advance c
    | none => l.pos
  match l.peek with
  | some next => (l.current, ⟨l.buffer, some next, pos, none⟩)
  | none =>
    match l.buffer with
    | [] => (l.current, ⟨[], none, pos, none⟩)
    | c :: rest => (l.current, ⟨rest, some c, pos, none⟩)

/-- The state after `advance` (the returned character is usually dropped). -/
def adv (l : Lexer) : Lexer := (l.advance).2

/-- `Lexer::peek` from src/lexer.rs: lazily fill the one-slot buffer from
the source and return it (named `peekChar` because `peek` is the field).
It is never invoked by `next_token` or any scanner. -/
def peekChar (l : Lexer) : Option Char × Lexer :=
  match l.peek with
  | some c => (some c, l)
  | none =>
    match l.buffer with
    | [] => (none, ⟨[], l.current, l.pos, none⟩)
    | c :: rest => (some c, ⟨rest, l.current, l.pos, some c⟩)

/-- Number of characters the state can still hand out; each `advance` on a
state with a current character strictly decreases it, so `size l + 1` is
enough fuel for every scanning loop below. -/
def size (l : Lexer) : Nat :=
  l.buffer.length + l.current.toList.length + l.peek.toList.length

end Lexer

/-- The loop of `Lexer::skip_whitespace` (src/lexer.rs lines 149-156),
fuel-indexed: consume characters while `current` is whitespace. -/
def skipWsFuel : Nat → Lexer → Lexer
  | 0, l => l
  | fuel + 1, l =>
    match l.current with
    | some ch => if isRustWhitespace ch then skipWsFuel fuel l.adv else l
    | none => l

/-- `Lexer::skip_whitespace` from src/lexer.rs. -/
def Lexer.skip_whitespace (l : Lexer) : Lexer :=
  skipWsFuel (l.size + 1) l

/-- The loop of `Lexer::tokenize_string` (src/lexer.rs lines 185-198),
fuel-indexed, accumulator passed explicitly: a closing quote is consumed and
succeeds with the accumulated text; a null byte or a literal newline fails
without consuming; any other character is appended verbatim (no escape
processing); running out of characters fails with `StringContainsEof`. -/
def strLoopFuel : Nat → Lexer → String → Except LexerError TokenType × Lexer
  | 0, l, _ => (.error .StringContainsEof, l)
  | fuel + 1, l, string =>
    match l.current with
    | some ch =>
      if ch = '"' then (.ok (.StringLiteral string), l.adv)
      else if ch = '\x00' then (.error .StringContainsNull, l)
      else if ch = '\n' then (.error .StringUnterminated, l)
      else strLoopFuel fuel l.adv (string.push ch)
    | none => (.error .StringContainsEof, l)

/-- `Lexer::tokenize_string` from src/lexer.rs: consume the opening quote,
then run the scan loop with an empty accumulator. -/
def Lexer.tokenize_string (l : Lexer) : Except LexerError TokenType × Lexer :=
  strLoopFuel (l.size + 1) l.adv ""

/-- The loop of `Lexer::tokenize_number` (src/lexer.rs lines 205-211),
fuel-indexed: consume a maximal run of ASCII digits into the accumulator. -/
def numLoopFuel : Nat → Lexer → String → String × Lexer
  | 0, l, num => (num, l)
  | fuel + 1, l, num =>
    match l.current with
    | some ch => if ch.isDigit then numLoopFuel fuel l.adv (num.push ch) else (num, l)
    | none => (num, l)

/-- Numeric value of a digit string (most significant first). -/
def digitsToNat (cs : List Char) : Nat :=
  cs.foldl (fun a c => a * 10 + (c.toNat - 48)) 0

/-- `i64::MAX`. -/
def i64Max : Nat := 9223372036854775807

/-- Model of the Rust standard library's `str::parse::<i64>` on the strings
this lexer feeds it (runs of ASCII digits, possibly empty): an empty string
or any non-digit is a parse error, and a value exceeding `i64::MAX` is an
overflow error; otherwise the decimal value is returned.  (Rust's parser
also accepts a leading sign, which `tokenize_number` never produces.) -/
def parseI64 (s : String) : Option Int :=
  if s.data ≠ [] ∧ s.data.all Char.isDigit then
    if digitsToNat s.data ≤ i64Max then some (digitsToNat s.data) else none
  else none

/-- `Lexer::tokenize_number` from src/lexer.rs: scan the digit run, parse it
as an `i64`, and turn a parse failure into `InvalidChar('0')`. -/
def Lexer.tokenize_number (l : Lexer) : Except LexerError TokenType × Lexer :=
  let r := numLoopFuel (l.size + 1) l ""
  match parseI64 r.1 with
  | some v => (.ok (.IntLiteral v), r.2)
  | none => (.error (.InvalidChar '0'), r.2)

/-- The loop of `Lexer::tokenize_ident` (src/lexer.rs lines 220-227),
fuel-indexed: consume a maximal run of alphanumerics and underscores. -/
def identLoopFuel : Nat → Lexer → String → String × Lexer
  | 0, l, ident => (ident, l)
  | fuel + 1, l, ident =>
    match l.current with
    | some ch =>
      if isRustAlphanumeric ch || ch == '_' then identLoopFuel fuel l.adv (ident.push ch)
      else (ident, l)
    | none => (ident, l)

/-- The keyword table of `Lexer::tokenize_ident` (src/lexer.rs lines
229-256): exact-cased reserved words first, then classification of a miss
by the case of the first character. -/
def keywordOrIdent (ident : String) : TokenType :=
  match ident with
  | "true" => .BoolLiteral true
  | "false" => .BoolLiteral false
  | "if" => .If
  | "fi" => .Fi
  | "else" => .Else
  | "while" => .While
  | "case" => .Case
  | "esac" => .Esac
  | "isvoid" => .IsVoid
  | "let" => .Let
  | "loop" => .Loop
  | "new" => .New
  | "not" => .Not
  | "of" => .Of
  | "pool" => .Pool
  | "then" => .Then
  | "in" => .In
  | "inherits" => .Inherits
  | "class" => .Class
  | _ => if firstCharUppercase ident then .ClassName ident else .Ident ident

/-- `Lexer::tokenize_ident` from src/lexer.rs: scan the run, then classify
it through the keyword table.  This function never fails. -/
def Lexer.tokenize_ident (l : Lexer) : Except LexerError TokenType × Lexer :=
  let r := identLoopFuel (l.size + 1) l ""
  (.ok (keywordOrIdent r.1), r.2)

/-- `Lexer::next_token` from src/lexer.rs lines 118-147: skip whitespace,
record the start position, dispatch on the current character (`{`, `}`,
`"`, ASCII digit, ASCII letter or underscore, anything else is
`InvalidChar` without consuming), and wrap the kind in a span from the
recorded start to the position after scanning. -/
def Lexer.next_token (l : Lexer) : Except LexerError Token × Lexer :=
  let l1 := l.skip_whitespace
  let start := l1.pos
  let r : Except LexerError TokenType × Lexer :=
    match l1.current with
    | none => (.ok .Eof, l1)
    | some c =>
      if c = '{' then (.ok .LBrace, l1.adv)
      else if c = '}' then (.ok .RBrace, l1.adv)
      else if c = '"' then l1.tokenize_string
      else if '0' ≤ c ∧ c ≤ '9' then l1.tokenize_number
      else if ('a' ≤ c ∧ c ≤ 'z') ∨ ('A' ≤ c ∧ c ≤ 'Z') ∨ c = '_' then l1.tokenize_ident
      else (.error (.InvalidChar c), l1)
  match r with
  | (.ok tt, l2) => (.ok ⟨tt, ⟨start, l2.pos⟩⟩, l2)
  | (.error e, l2) => (.error e, l2)

instance : DecidableEq (Except LexerError Token) := fun a b =>
  match a, b with
  | .ok x, .ok y =>
    if h : x = y then .isTrue (by rw [h]) else .isFalse (by simp [h])
  | .error x, .error y =>
    if h : x = y then .isTrue (by rw [h]) else .isFalse (by simp [h])
  | .ok _, .error _ => .isFalse (by simp)
  | .error _, .ok _ => .isFalse (by simp)

/-! ## Auxiliary notions used to state and prove the claims -/

/-- The canonical lexer state whose not-yet-consumed characters are `cs` and
whose position is `p`: `current` holds the head, the buffer the tail, and
the peek slot is empty.  `Lexer::new` produces exactly such a state, and
`advance` maps one such state to another. -/
def mkState (cs : List Char) (p : Pos) : Lexer :=
  match cs with
  | [] => ⟨[], none, p, none⟩
  | c :: rest => ⟨rest, some c, p, none⟩

/-- Characters the state will still hand out, in consumption order:
`current`, then the peek slot, then the buffer. -/
def remaining (l : Lexer) : List Char :=
  l.current.toList ++ l.peek.toList ++ l.buffer

/-- `offset + number of characters left`: invariant under every scanner
step, which is exactly the statement that `offset` counts consumed
characters. -/
def Sm (l : Lexer) : Nat :=
  l.pos.offset + (remaining l).length

/-- Position reached after advancing past each character of `cs` in order. -/
def posAfter (p : Pos) (cs : List Char) : Pos :=
  cs.foldl Pos.advance p

/-- Total UTF-8 byte length of a character sequence (used to state the
byte-offset reading of the position-tracking claim). -/
def utf8Len (cs : List Char) : Nat :=
  (cs.map Char.utf8Size).sum

/-- The state after one call to `next_token` (the sequence-adapter step). -/
def nextState (l : Lexer) : Lexer := l.next_token.2

/-- The state after `k` calls to `next_token`. -/
def runN : Nat → Lexer → Lexer
  | 0, l => l
  | k + 1, l => runN k (nextState l)

/-- A call at which a token-pulling caller stops: an error or the
end-of-input token. -/
def isStop (r : Except LexerError Token) : Bool :=
  match r with
  | .error _ => true
  | .ok t => t.token_type == .Eof

/-- Fuel-indexed digit extraction (most significant digit first once the
recursion bottoms out); `fuel = n + 1` always suffices. -/
def natToDecimalAux : Nat → Nat → List Char → List Char
  | 0, _, acc => acc
  | fuel + 1, n, acc =>
    let d := Char.ofNat (48 + n % 10)
    if n < 10 then d :: acc else natToDecimalAux fuel (n / 10) (d :: acc)

/-- The decimal text of `n`, e.g. `natToDecimal 42 = ['4', '2']`. -/
def natToDecimal (n : Nat) : List Char :=
  natToDecimalAux (n + 1) n []

/-! ## Basic lemmas about states and single steps -/

theorem new_eq_mkState (cs : List Char) : Lexer.new cs = mkState cs ⟨0, 1, 0⟩ := by
  cases cs <;> rfl

theorem mkState_current_cons (c : Char) (cs : List Char) (p : Pos) :
    (mkState (c :: cs) p).current = some c := rfl

theorem mkState_current_nil (p : Pos) : (mkState [] p).current = none := rfl

theorem mkState_pos (cs : List Char) (p : Pos) : (mkState cs p).pos = p := by
  cases cs <;> rfl

theorem mkState_adv (c : Char) (cs : List Char) (p : Pos) :
    (mkState (c :: cs) p).adv = mkState cs (p.advance c) := by
  cases cs <;> rfl

theorem mkState_size (cs : List Char) (p : Pos) : (mkState cs p).size = cs.length := by
  cases cs <;> simp [mkState, Lexer.size]

theorem remaining_mkState (cs : List Char) (p : Pos) : remaining (mkState cs p) = cs := by
  cases cs <;> simp [mkState, remaining]

theorem Pos.advance_offset (p : Pos) (c : Char) : (p.advance c).offset = p.offset + 1 := by
  unfold Pos.advance; split <;> rfl

theorem adv_pos_of_some {l : Lexer} {c : Char} (h : l.current = some c) :
    l.adv.pos = l.pos.advance c := by
  cases hp : l.peek <;> cases hb : l.buffer <;>
    simp [Lexer.adv, Lexer.advance, h, hp, hb]

theorem adv_pos_of_none {l : Lexer} (h : l.current = none) : l.adv.pos = l.pos := by
  cases hp : l.peek <;> cases hb : l.buffer <;>
    simp [Lexer.adv, Lexer.advance, h, hp, hb]

theorem adv_offset_of_some {l : Lexer} {c : Char} (h : l.current = some c) :
    l.adv.pos.offset = l.pos.offset + 1 := by
  rw [adv_pos_of_some h, Pos.advance_offset]

theorem adv_offset_ge (l : Lexer) : l.pos.offset ≤ l.adv.pos.offset := by
  cases h : l.current with
  | none => rw [adv_pos_of_none h]
  | some c => rw [adv_offset_of_some h]; omega

theorem remaining_adv_of_some {l : Lexer} {c : Char} (h : l.current = some c) :
    remaining l = c :: remaining l.adv := by
  cases hp : l.peek <;> cases hb : l.buffer <;>
    simp [Lexer.adv, Lexer.advance, remaining, h, hp, hb]

theorem remaining_adv_of_none {l : Lexer} (h : l.current = none) :
    remaining l.adv = remaining l := by
  cases hp : l.peek <;> cases hb : l.buffer <;>
    simp [Lexer.adv, Lexer.advance, remaining, h, hp, hb]

theorem Sm_adv (l : Lexer) : Sm l.adv = Sm l := by
  cases h : l.current with
  | none => simp [Sm, remaining_adv_of_none h, adv_pos_of_none h]
  | some c =>
    have hr := remaining_adv_of_some h
    have ho := adv_offset_of_some h
    simp only [Sm, ho, hr, List.length_cons]
    omega

theorem size_eq_remaining_length (l : Lexer) : l.size = (remaining l).length := by
  simp [Lexer.size, remaining]; omega

/-! ## Character classification facts -/

theorem charLe_iff (c d : Char) : c ≤ d ↔ c.toNat ≤ d.toNat := by
  rw [Char.le_def, UInt32.le_def]; exact Iff.rfl

theorem charEq_iff (c d : Char) : c = d ↔ c.toNat = d.toNat := by
  rw [Char.ext_iff, UInt32.ext_iff]; exact Iff.rfl

theorem isDigit_iff_toNat (c : Char) : c.isDigit = true ↔ 48 ≤ c.toNat ∧ c.toNat ≤ 57 := by
  simp only [Char.isDigit, Bool.and_eq_true, decide_eq_true_iff, GE.ge]
  rw [UInt32.le_def, UInt32.le_def]
  exact Iff.rfl

theorem isDigit_iff_range (c : Char) : c.isDigit = true ↔ ('0' ≤ c ∧ c ≤ '9') := by
  rw [isDigit_iff_toNat, charLe_iff, charLe_iff]
  exact Iff.rfl

theorem isRustWhitespace_iff (c : Char) : isRustWhitespace c = true ↔
    (9 ≤ c.toNat ∧ c.toNat ≤ 13) ∨ c.toNat = 32 ∨ c.toNat = 133 ∨ c.toNat = 160 ∨
    c.toNat = 5760 ∨ (8192 ≤ c.toNat ∧ c.toNat ≤ 8202) ∨ c.toNat = 8232 ∨
    c.toNat = 8233 ∨ c.toNat = 8239 ∨ c.toNat = 8287 ∨ c.toNat = 12288 := by
  simp only [isRustWhitespace, Bool.or_eq_true, Bool.and_eq_true, decide_eq_true_iff,
    Nat.beq_eq_true_eq]
  tauto

theorem digit_not_whitespace {c : Char} (h : c.isDigit = true) :
    isRustWhitespace c = false := by
  rw [isDigit_iff_toNat] at h
  rw [Bool.eq_false_iff]
  intro hw
  rw [isRustWhitespace_iff] at hw
  omega

theorem isAlpha_iff_toNat (c : Char) : c.isAlpha = true ↔
    (65 ≤ c.toNat ∧ c.toNat ≤ 90) ∨ (97 ≤ c.toNat ∧ c.toNat ≤ 122) := by
  simp only [Char.isAlpha, Char.isUpper, Char.isLower, Bool.or_eq_true,
    Bool.and_eq_true, decide_eq_true_iff, GE.ge]
  rw [UInt32.le_def, UInt32.le_def, UInt32.le_def, UInt32.le_def]
  exact Iff.rfl

/-! ## Invariants of the scanning loops -/

theorem skipWsFuel_S (f : Nat) : ∀ l : Lexer, Sm (skipWsFuel f l) = Sm l := by
  induction f with
  | zero => intro l; rfl
  | succ f ih =>
    intro l
    simp only [skipWsFuel]
    cases h : l.current with
    | none => rfl
    | some ch =>
      by_cases hw : isRustWhitespace ch = true
      · simp only [hw, if_true, ih l.adv, Sm_adv]
      · simp only [Bool.not_eq_true] at hw
        simp [hw]

theorem skipWsFuel_offset (f : Nat) : ∀ l : Lexer, l.pos.offset ≤ (skipWsFuel f l).pos.offset := by
  induction f with
  | zero => intro l; exact le_refl _
  | succ f ih =>
    intro l
    simp only [skipWsFuel]
    cases h : l.current with
    | none => exact le_refl _
    | some ch =>
      by_cases hw : isRustWhitespace ch = true
      · simp only [hw, if_true]
        exact le_trans (adv_offset_ge l) (ih l.adv)
      · simp only [Bool.not_eq_true] at hw
        simp [hw]

theorem Sm_skip_whitespace (l : Lexer) : Sm l.skip_whitespace = Sm l :=
  skipWsFuel_S _ l

theorem skip_whitespace_offset (l : Lexer) :
    l.pos.offset ≤ l.skip_whitespace.pos.offset :=
  skipWsFuel_offset _ l

theorem skip_whitespace_of_none {l : Lexer} (h : l.current = none) :
    l.skip_whitespace = l := by
  unfold Lexer.skip_whitespace
  simp [skipWsFuel, h]

theorem skip_whitespace_of_not_ws {l : Lexer} {c : Char} (h : l.current = some c)
    (hw : isRustWhitespace c = false) : l.skip_whitespace = l := by
  unfold Lexer.skip_whitespace
  simp [skipWsFuel, h, hw]

theorem skip_whitespace_mkState_ws {c : Char} {cs : List Char} {p : Pos}
    (hw : isRustWhitespace c = true) :
    (mkState (c :: cs) p).skip_whitespace = (mkState cs (p.advance c)).skip_whitespace := by
  unfold Lexer.skip_whitespace
  rw [mkState_size, mkState_size, List.length_cons]
  simp only [skipWsFuel, mkState_current_cons, hw, if_true, mkState_adv]

theorem strLoopFuel_S (f : Nat) :
    ∀ (l : Lexer) (acc : String), Sm (strLoopFuel f l acc).2 = Sm l := by
  induction f with
  | zero => intro l acc; rfl
  | succ f ih =>
    intro l acc
    simp only [strLoopFuel]
    cases h : l.current with
    | none => rfl
    | some ch =>
      by_cases h1 : ch = '"'
      · simp only [h1, if_true, Sm_adv]
      · by_cases h2 : ch = '\x00'
        · simp [h1, h2]
        · by_cases h3 : ch = '\n'
          · simp [h1, h2, h3]
          · simp only [h1, h2, h3, if_false, ih l.adv, Sm_adv]

theorem strLoopFuel_offset (f : Nat) :
    ∀ (l : Lexer) (acc : String), l.pos.offset ≤ (strLoopFuel f l acc).2.pos.offset := by
  induction f with
  | zero => intro l acc; exact le_refl _
  | succ f ih =>
    intro l acc
    simp only [strLoopFuel]
    cases h : l.current with
    | none => exact le_refl _
    | some ch =>
      by_cases h1 : ch = '"'
      · simp only [h1, if_true]
        exact adv_offset_ge l
      · by_cases h2 : ch = '\x00'
        · simp [h1, h2]
        · by_cases h3 : ch = '\n'
          · simp [h1, h2, h3]
          · simp only [h1, h2, h3, if_false]
            exact le_trans (adv_offset_ge l) (ih l.adv _)

theorem strLoopFuel_ok_shape (f : Nat) :
    ∀ (l : Lexer) (acc : String) (tt : TokenType),
      (strLoopFuel f l acc).1 = .ok tt → ∃ s, tt = .StringLiteral s := by
  induction f with
  | zero => intro l acc tt h; exact absurd h (by simp [strLoopFuel])
  | succ f ih =>
    intro l acc tt h
    simp only [strLoopFuel] at h
    cases hc : l.current with
    | none => rw [hc] at h; exact absurd h (by simp)
    | some ch =>
      rw [hc] at h
      by_cases h1 : ch = '"'
      · simp only [h1, if_true] at h
        exact ⟨acc, by injection h with h; exact h.symm⟩
      · by_cases h2 : ch = '\x00'
        · simp [h1, h2] at h
        · by_cases h3 : ch = '\n'
          · simp [h1, h2, h3] at h
          · simp only [h1, h2, h3, if_false] at h
            exact ih l.adv _ tt h

theorem numLoopFuel_S (f : Nat) :
    ∀ (l : Lexer) (num : String), Sm (numLoopFuel f l num).2 = Sm l := by
  induction f with
  | zero => intro l num; rfl
  | succ f ih =>
    intro l num
    simp only [numLoopFuel]
    cases h : l.current with
    | none => rfl
    | some ch =>
      by_cases hd : ch.isDigit = true
      · simp only [hd, if_true, ih l.adv, Sm_adv]
      · simp only [Bool.not_eq_true] at hd
        simp [hd]

theorem numLoopFuel_progress (f : Nat) :
    ∀ (l : Lexer) (num : String),
      ((numLoopFuel f l num).1 = num ∧ (numLoopFuel f l num).2 = l) ∨
        l.pos.offset < (numLoopFuel f l num).2.pos.offset := by
  induction f with
  | zero => intro l num; exact Or.inl ⟨rfl, rfl⟩
  | succ f ih =>
    intro l num
    simp only [numLoopFuel]
    cases h : l.current with
    | none => exact Or.inl ⟨rfl, rfl⟩
    | some ch =>
      by_cases hd : ch.isDigit = true
      · simp only [hd, if_true]
        refine Or.inr ?_
        have hadv : l.adv.pos.offset = l.pos.offset + 1 := adv_offset_of_some h
        rcases ih l.adv (num.push ch) with ⟨_, h2⟩ | h2
        · rw [h2, hadv]; omega
        · omega
      · simp only [Bool.not_eq_true] at hd
        simp [hd]

theorem identLoopFuel_S (f : Nat) :
    ∀ (l : Lexer) (acc : String), Sm (identLoopFuel f l acc).2 = Sm l := by
  induction f with
  | zero => intro l acc; rfl
  | succ f ih =>
    intro l acc
    simp only [identLoopFuel]
    cases h : l.current with
    | none => rfl
    | some ch =>
      by_cases ht : (isRustAlphanumeric ch || ch == '_') = true
      · simp only [ht, if_true, ih l.adv, Sm_adv]
      · simp only [Bool.not_eq_true] at ht
        simp [ht]

theorem posAfter_nil (p : Pos) : posAfter p [] = p := rfl

theorem posAfter_cons (p : Pos) (c : Char) (cs : List Char) :
    posAfter p (c :: cs) = posAfter (p.advance c) cs := rfl

theorem posAfter_append (p : Pos) (xs ys : List Char) :
    posAfter p (xs ++ ys) = posAfter (posAfter p xs) ys := by
  simp [posAfter, List.foldl_append]

theorem posAfter_no_newline : ∀ (cs : List Char) (p : Pos), (∀ c ∈ cs, c ≠ '\n') →
    posAfter p cs = ⟨p.offset + cs.length, p.line, p.col + cs.length⟩ := by
  intro cs
  induction cs with
  | nil => intro p _; cases p; rfl
  | cons c cs ih =>
    intro p h
    have hc : c ≠ '\n' := h c (by simp)
    rw [posAfter_cons, ih _ (fun d hd => h d (by simp [hd]))]
    simp only [Pos.advance, hc, if_false, List.length_cons]
    congr 1 <;> omega

theorem String.data_push (s : String) (c : Char) : (String.push s c).data = s.data ++ [c] := by
  simp [String.push]

theorem String.mk_data (s : String) : String.mk s.data = s := by
  cases s; rfl

/-- The string-scanning loop over a run of ordinary content characters
followed by the closing quote: it succeeds, appending the content to the
accumulator, consuming through the quote. -/
theorem strLoopFuel_content : ∀ (s : List Char) (f : Nat) (acc : String)
    (rest : List Char) (p : Pos), s.length + 1 + rest.length < f →
    (∀ c ∈ s, c ≠ '"' ∧ c ≠ '\x00' ∧ c ≠ '\n') →
    strLoopFuel f (mkState (s ++ '"' :: rest) p) acc =
      (.ok (.StringLiteral (String.mk (acc.data ++ s))),
        mkState rest (posAfter p (s ++ ['"']))) := by
  intro s
  induction s with
  | nil =>
    intro f acc rest p hf _
    obtain ⟨f', rfl⟩ : ∃ f', f = f' + 1 := ⟨f - 1, by omega⟩
    simp only [List.nil_append, strLoopFuel, mkState_current_cons, if_true,
      mkState_adv, List.append_nil, String.mk_data]
    rfl
  | cons c s ih =>
    intro f acc rest p hf h
    obtain ⟨hc1, hc2, hc3⟩ := h c (by simp)
    obtain ⟨f', rfl⟩ : ∃ f', f = f' + 1 := ⟨f - 1, by omega⟩
    simp only [List.cons_append, strLoopFuel, mkState_current_cons, hc1, hc2, hc3,
      if_false, mkState_adv]
    rw [ih f' (acc.push c) rest (p.advance c)
      (by simp at hf ⊢; omega) (fun d hd => h d (by simp [hd]))]
    rw [String.data_push]
    simp only [List.append_assoc, List.singleton_append]
    rfl

/-- The string-scanning loop hitting a literal newline after a run of
ordinary content: it fails with `StringUnterminated`, leaving the newline
unconsumed. -/
theorem strLoopFuel_unterminated : ∀ (s : List Char) (f : Nat) (acc : String)
    (rest : List Char) (p : Pos), s.length < f →
    (∀ c ∈ s, c ≠ '"' ∧ c ≠ '\x00' ∧ c ≠ '\n') →
    strLoopFuel f (mkState (s ++ '\n' :: rest) p) acc =
      (.error .StringUnterminated, mkState ('\n' :: rest) (posAfter p s)) := by
  intro s
  induction s with
  | nil =>
    intro f acc rest p hf _
    obtain ⟨f', rfl⟩ : ∃ f', f = f' + 1 := ⟨f - 1, by omega⟩
    simp [strLoopFuel, mkState_current_cons, posAfter_nil]
  | cons c s ih =>
    intro f acc rest p hf h
    obtain ⟨hc1, hc2, hc3⟩ := h c (by simp)
    obtain ⟨f', rfl⟩ : ∃ f', f = f' + 1 := ⟨f - 1, by omega⟩
    simp only [List.cons_append, strLoopFuel, mkState_current_cons, hc1, hc2, hc3,
      if_false, mkState_adv]
    rw [ih f' (acc.push c) rest (p.advance c) (by simp at hf ⊢; omega)
      (fun d hd => h d (by simp [hd]))]
    rfl

/-- The string-scanning loop hitting a null byte after a run of ordinary
content: it fails with `StringContainsNull`, leaving the null unconsumed. -/
theorem strLoopFuel_null : ∀ (s : List Char) (f : Nat) (acc : String)
    (rest : List Char) (p : Pos), s.length < f →
    (∀ c ∈ s, c ≠ '"' ∧ c ≠ '\x00' ∧ c ≠ '\n') →
    strLoopFuel f (mkState (s ++ '\x00' :: rest) p) acc =
      (.error .StringContainsNull, mkState ('\x00' :: rest) (posAfter p s)) := by
  intro s
  induction s with
  | nil =>
    intro f acc rest p hf _
    obtain ⟨f', rfl⟩ : ∃ f', f = f' + 1 := ⟨f - 1, by omega⟩
    simp [strLoopFuel, mkState_current_cons, posAfter_nil]
  | cons c s ih =>
    intro f acc rest p hf h
    obtain ⟨hc1, hc2, hc3⟩ := h c (by simp)
    obtain ⟨f', rfl⟩ : ∃ f', f = f' + 1 := ⟨f - 1, by omega⟩
    simp only [List.cons_append, strLoopFuel, mkState_current_cons, hc1, hc2, hc3,
      if_false, mkState_adv]
    rw [ih f' (acc.push c) rest (p.advance c) (by simp at hf ⊢; omega)
      (fun d hd => h d (by simp [hd]))]
    rfl

/-- The string-scanning loop running out of input after a run of ordinary
content: it fails with `StringContainsEof` having consumed everything. -/
theorem strLoopFuel_eof : ∀ (s : List Char) (f : Nat) (acc : String) (p : Pos),
    s.length < f →
    (∀ c ∈ s, c ≠ '"' ∧ c ≠ '\x00' ∧ c ≠ '\n') →
    strLoopFuel f (mkState s p) acc =
      (.error .StringContainsEof, mkState [] (posAfter p s)) := by
  intro s
  induction s with
  | nil =>
    intro f acc p hf _
    obtain ⟨f', rfl⟩ : ∃ f', f = f' + 1 := ⟨f - 1, by omega⟩
    simp [strLoopFuel, mkState, posAfter_nil]
  | cons c s ih =>
    intro f acc p hf h
    obtain ⟨hc1, hc2, hc3⟩ := h c (by simp)
    obtain ⟨f', rfl⟩ : ∃ f', f = f' + 1 := ⟨f - 1, by omega⟩
    simp only [strLoopFuel, mkState_current_cons, hc1, hc2, hc3, if_false, mkState_adv]
    rw [ih f' (acc.push c) (p.advance c) (by simp at hf ⊢; omega)
      (fun d hd => h d (by simp [hd]))]
    rfl

/-- The digit-scanning loop over a maximal run of digits `ds` followed by
`rest` (whose head, if any, is not a digit): it accumulates exactly `ds` and
stops at `rest`. -/
theorem numLoopFuel_digits : ∀ (ds : List Char) (f : Nat) (num : String)
    (rest : List Char) (p : Pos), ds.length < f →
    (∀ c ∈ ds, c.isDigit = true) →
    (∀ c, rest.head? = some c → c.isDigit = false) →
    numLoopFuel f (mkState (ds ++ rest) p) num =
      (String.mk (num.data ++ ds), mkState rest (posAfter p ds)) := by
  intro ds
  induction ds with
  | nil =>
    intro f num rest p hf _ hrest
    obtain ⟨f', rfl⟩ : ∃ f', f = f' + 1 := ⟨f - 1, by omega⟩
    cases rest with
    | nil => simp [numLoopFuel, mkState, posAfter_nil, String.mk_data]
    | cons r rs =>
      have hr : r.isDigit = false := hrest r rfl
      simp [numLoopFuel, mkState_current_cons, hr, posAfter_nil, String.mk_data]
  | cons d ds ih =>
    intro f num rest p hf h hrest
    have hd : d.isDigit = true := h d (by simp)
    obtain ⟨f', rfl⟩ : ∃ f', f = f' + 1 := ⟨f - 1, by omega⟩
    simp only [List.cons_append, numLoopFuel, mkState_current_cons, hd, if_true,
      mkState_adv]
    rw [ih f' (num.push d) rest (p.advance d) (by simp at hf ⊢; omega)
      (fun e he => h e (by simp [he])) hrest]
    rw [String.data_push]
    simp only [List.append_assoc, List.singleton_append]
    rfl

/-- The keyword table misses: a run that is none of the reserved words is
classified by the case of its first character. -/
theorem keywordOrIdent_miss (s : String) (h1 : s ≠ "true") (h2 : s ≠ "false")
    (h3 : s ≠ "if") (h4 : s ≠ "fi") (h5 : s ≠ "else") (h6 : s ≠ "while")
    (h7 : s ≠ "case") (h8 : s ≠ "esac") (h9 : s ≠ "isvoid") (h10 : s ≠ "let")
    (h11 : s ≠ "loop") (h12 : s ≠ "new") (h13 : s ≠ "not") (h14 : s ≠ "of")
    (h15 : s ≠ "pool") (h16 : s ≠ "then") (h17 : s ≠ "in") (h18 : s ≠ "inherits")
    (h19 : s ≠ "class") :
    keywordOrIdent s = if firstCharUppercase s then .ClassName s else .Ident s := by
  unfold keywordOrIdent
  split
  any_goals simp_all

/-- The keyword table never yields the `Semicolon` kind. -/
theorem keywordOrIdent_ne_semicolon (s : String) : keywordOrIdent s ≠ .Semicolon := by
  unfold keywordOrIdent
  split
  any_goals simp
  split <;> simp

theorem identLoopFuel_offset (f : Nat) :
    ∀ (l : Lexer) (acc : String), l.pos.offset ≤ (identLoopFuel f l acc).2.pos.offset := by
  induction f with
  | zero => intro l acc; exact le_refl _
  | succ f ih =>
    intro l acc
    simp only [identLoopFuel]
    cases h : l.current with
    | none => exact le_refl _
    | some ch =>
      by_cases ht : (isRustAlphanumeric ch || ch == '_') = true
      · simp only [ht, if_true]
        exact le_trans (adv_offset_ge l) (ih l.adv _)
      · simp only [Bool.not_eq_true] at ht
        simp [ht]

/-! ## Wrapper-level lemmas for the three scanners -/

theorem Sm_tokenize_string (l : Lexer) : Sm l.tokenize_string.2 = Sm l := by
  unfold Lexer.tokenize_string
  rw [strLoopFuel_S, Sm_adv]

theorem Sm_tokenize_number (l : Lexer) : Sm l.tokenize_number.2 = Sm l := by
  unfold Lexer.tokenize_number
  cases hp : parseI64 (numLoopFuel (l.size + 1) l "").1 <;>
    simp [hp, numLoopFuel_S]

theorem Sm_tokenize_ident (l : Lexer) : Sm l.tokenize_ident.2 = Sm l := by
  unfold Lexer.tokenize_ident
  simp [identLoopFuel_S]

theorem tokenize_string_offset_lt {l : Lexer} {c : Char} (h : l.current = some c) :
    l.pos.offset < l.tokenize_string.2.pos.offset := by
  unfold Lexer.tokenize_string
  refine lt_of_lt_of_le ?_ (strLoopFuel_offset _ _ _)
  rw [adv_offset_of_some h]
  omega

theorem parseI64_empty : parseI64 "" = none := rfl

theorem tokenize_number_ok_offset_lt {l : Lexer} {tt : TokenType} {l2 : Lexer}
    (h : l.tokenize_number = (.ok tt, l2)) : l.pos.offset < l2.pos.offset := by
  unfold Lexer.tokenize_number at h
  dsimp only at h
  rcases numLoopFuel_progress (l.size + 1) l "" with ⟨h1, h2⟩ | hlt
  · rw [h1, parseI64_empty] at h
    simp at h
  · cases hp : parseI64 (numLoopFuel (l.size + 1) l "").1 with
    | none => rw [hp] at h; simp at h
    | some v =>
      rw [hp] at h
      simp only [Prod.mk.injEq] at h
      rw [← h.2]
      exact hlt

theorem dispatch_ident_test {c : Char}
    (h : ('a' ≤ c ∧ c ≤ 'z') ∨ ('A' ≤ c ∧ c ≤ 'Z') ∨ c = '_') :
    (isRustAlphanumeric c || c == '_') = true := by
  rcases h with h | h | h
  · have : c.isAlpha = true := by
      rw [isAlpha_iff_toNat]
      rw [charLe_iff, charLe_iff] at h
      right
      exact h
    simp [isRustAlphanumeric, this]
  · have : c.isAlpha = true := by
      rw [isAlpha_iff_toNat]
      rw [charLe_iff, charLe_iff] at h
      left
      exact h
    simp [isRustAlphanumeric, this]
  · simp [h]

theorem tokenize_ident_offset_lt {l : Lexer} {c : Char} (h : l.current = some c)
    (ht : (isRustAlphanumeric c || c == '_') = true) :
    l.pos.offset < l.tokenize_ident.2.pos.offset := by
  unfold Lexer.tokenize_ident
  simp only [identLoopFuel, h, ht, if_true]
  refine lt_of_lt_of_le ?_ (identLoopFuel_offset _ _ _)
  rw [adv_offset_of_some h]
  omega

/-! ## `next_token`-level lemmas -/

/-- `next_token` on an exhausted character source: the end-of-input token
with a zero-width span at the current position, and the state untouched. -/
theorem next_token_of_none {l : Lexer} (h : l.current = none) :
    l.next_token = (.ok ⟨.Eof, ⟨l.pos, l.pos⟩⟩, l) := by
  unfold Lexer.next_token
  rw [skip_whitespace_of_none h]
  simp [h]

/-- `next_token` when the character after whitespace is not a recognized
token start: `InvalidChar` carrying that character, with the state left at
the dispatch point (the character is not consumed). -/
theorem next_token_invalid {l : Lexer} {c : Char}
    (h : l.skip_whitespace.current = some c)
    (h1 : c ≠ '{') (h2 : c ≠ '}') (h3 : c ≠ '"')
    (h4 : ¬('0' ≤ c ∧ c ≤ '9'))
    (h5 : ¬(('a' ≤ c ∧ c ≤ 'z') ∨ ('A' ≤ c ∧ c ≤ 'Z') ∨ c = '_')) :
    l.next_token = (.error (.InvalidChar c), l.skip_whitespace) := by
  unfold Lexer.next_token
  simp [h, h1, h2, h3, h4, h5]

theorem next_token_S (l : Lexer) : Sm l.next_token.2 = Sm l := by
  unfold Lexer.next_token
  cases h : l.skip_whitespace.current with
  | none => simp [h, Sm_skip_whitespace]
  | some c =>
    by_cases h1 : c = '{'
    · simp [h, h1, Sm_adv, Sm_skip_whitespace]
    · by_cases h2 : c = '}'
      · simp [h, h1, h2, Sm_adv, Sm_skip_whitespace]
      · by_cases h3 : c = '"'
        · cases hr : l.skip_whitespace.tokenize_string with
          | mk r l2 =>
            have hS : Sm l2 = Sm l.skip_whitespace := by
              have := Sm_tokenize_string l.skip_whitespace
              rw [hr] at this
              exact this
            cases r <;> simp [h, h1, h2, h3, hr, hS, Sm_skip_whitespace]
        · by_cases h4 : '0' ≤ c ∧ c ≤ '9'
          · cases hr : l.skip_whitespace.tokenize_number with
            | mk r l2 =>
              have hS : Sm l2 = Sm l.skip_whitespace := by
                have := Sm_tokenize_number l.skip_whitespace
                rw [hr] at this
                exact this
              cases r <;> simp [h, h1, h2, h3, h4, hr, hS, Sm_skip_whitespace]
          · by_cases h5 : ('a' ≤ c ∧ c ≤ 'z') ∨ ('A' ≤ c ∧ c ≤ 'Z') ∨ c = '_'
            · cases hr : l.skip_whitespace.tokenize_ident with
              | mk r l2 =>
                have hS : Sm l2 = Sm l.skip_whitespace := by
                  have := Sm_tokenize_ident l.skip_whitespace
                  rw [hr] at this
                  exact this
                cases r <;> simp [h, h1, h2, h3, h4, h5, hr, hS, Sm_skip_whitespace]
            · simp [h, h1, h2, h3, h4, h5, Sm_skip_whitespace]

/-- Every successful token other than end-of-input strictly increases the
position offset: the call consumed at least one character. -/
theorem next_token_ok_progress {l : Lexer} {t : Token} {l' : Lexer}
    (h : l.next_token = (.ok t, l')) (hne : t.token_type ≠ .Eof) :
    l.pos.offset < l'.pos.offset := by
  have hskip : l.pos.offset ≤ l.skip_whitespace.pos.offset := skip_whitespace_offset l
  unfold Lexer.next_token at h
  dsimp only at h
  cases hc : l.skip_whitespace.current with
  | none =>
    rw [hc] at h
    dsimp only at h
    simp only [Prod.mk.injEq] at h
    exact absurd (congrArg Token.token_type (Except.ok.inj h.1).symm) hne
  | some c =>
    rw [hc] at h
    dsimp only at h
    by_cases h1 : c = '{'
    · rw [if_pos h1] at h
      dsimp only at h
      simp only [Prod.mk.injEq] at h
      rw [← h.2]
      have := adv_offset_of_some hc
      omega
    · rw [if_neg h1] at h
      by_cases h2 : c = '}'
      · rw [if_pos h2] at h
        dsimp only at h
        simp only [Prod.mk.injEq] at h
        rw [← h.2]
        have := adv_offset_of_some hc
        omega
      · rw [if_neg h2] at h
        by_cases h3 : c = '"'
        · rw [if_pos h3] at h
          cases hr : l.skip_whitespace.tokenize_string with
          | mk r l2 =>
            rw [hr] at h
            cases r with
            | error e => simp at h
            | ok tt =>
              dsimp only at h
              simp only [Prod.mk.injEq] at h
              rw [← h.2]
              have := tokenize_string_offset_lt hc
              rw [hr] at this
              dsimp only at this
              omega
        · rw [if_neg h3] at h
          by_cases h4 : '0' ≤ c ∧ c ≤ '9'
          · rw [if_pos h4] at h
            cases hr : l.skip_whitespace.tokenize_number with
            | mk r l2 =>
              rw [hr] at h
              cases r with
              | error e => simp at h
              | ok tt =>
                dsimp only at h
                simp only [Prod.mk.injEq] at h
                rw [← h.2]
                have := tokenize_number_ok_offset_lt hr
                omega
          · rw [if_neg h4] at h
            by_cases h5 : ('a' ≤ c ∧ c ≤ 'z') ∨ ('A' ≤ c ∧ c ≤ 'Z') ∨ c = '_'
            · rw [if_pos h5] at h
              cases hr : l.skip_whitespace.tokenize_ident with
              | mk r l2 =>
                rw [hr] at h
                cases r with
                | error e => simp at h
                | ok tt =>
                  dsimp only at h
                  simp only [Prod.mk.injEq] at h
                  rw [← h.2]
                  have := tokenize_ident_offset_lt hc (dispatch_ident_test h5)
                  rw [hr] at this
                  dsimp only at this
                  omega
            · rw [if_neg h5] at h
              dsimp only at h
              simp at h

/-- A successful non-end-of-input call strictly shrinks the list of
characters still to be handed out. -/
theorem next_token_ok_rem_lt {l : Lexer} {t : Token} {l' : Lexer}
    (h : l.next_token = (.ok t, l')) (hne : t.token_type ≠ .Eof) :
    (remaining l').length < (remaining l).length := by
  have hS : Sm l' = Sm l := by
    have := next_token_S l
    rw [h] at this
    exact this
  have hoff := next_token_ok_progress h hne
  unfold Sm at hS
  omega

/-! ## Iterating `next_token` -/

theorem Sm_runN (k : Nat) : ∀ l : Lexer, Sm (runN k l) = Sm l := by
  induction k with
  | zero => intro l; rfl
  | succ k ih =>
    intro l
    rw [runN, ih, nextState, next_token_S]

theorem remaining_nil_current_none {l : Lexer} (h : remaining l = []) :
    l.current = none := by
  unfold remaining at h
  cases hc : l.current with
  | none => rfl
  | some c => rw [hc] at h; simp at h

/-- Pulling tokens halts: from every state, some finite number of calls
reaches an error or the end-of-input token. -/
theorem lex_terminates : ∀ (n : Nat) (l : Lexer), (remaining l).length ≤ n →
    ∃ k, isStop ((runN k l).next_token).1 = true := by
  intro n
  induction n with
  | zero =>
    intro l hlen
    refine ⟨0, ?_⟩
    have hnil : remaining l = [] := by
      cases hr : remaining l with
      | nil => rfl
      | cons a as => rw [hr] at hlen; simp at hlen
    rw [runN, next_token_of_none (remaining_nil_current_none hnil)]
    simp [isStop]
  | succ n ih =>
    intro l hlen
    by_cases hstop : isStop (l.next_token).1 = true
    · exact ⟨0, by rwa [runN]⟩
    · cases hr : (l.next_token).1 with
      | error e => rw [hr] at hstop; simp [isStop] at hstop
      | ok t =>
        have hne : t.token_type ≠ .Eof := by
          intro heq
          rw [hr] at hstop
          simp [isStop, heq] at hstop
        have hpair : l.next_token = (.ok t, l.next_token.2) := by
          cases hp : l.next_token with
          | mk a b =>
            rw [hp] at hr
            dsimp only at hr
            rw [hr]
        have hlt := next_token_ok_rem_lt hpair hne
        obtain ⟨k, hk⟩ := ih (l.next_token.2) (by omega)
        exact ⟨k + 1, by rwa [runN, nextState]⟩

/-! ## Wrapper lemmas on canonical states -/

/-- `tokenize_string` on input `"s"` followed by `rest`, `s` made of
ordinary content characters: the string literal `s`, with everything
through the closing quote consumed. -/
theorem tokenize_string_mkState_content (s rest : List Char) (p : Pos)
    (h : ∀ c ∈ s, c ≠ '"' ∧ c ≠ '\x00' ∧ c ≠ '\n') :
    (mkState ('"' :: (s ++ '"' :: rest)) p).tokenize_string =
      (.ok (.StringLiteral (String.mk s)),
        mkState rest (posAfter p ('"' :: (s ++ ['"'])))) := by
  unfold Lexer.tokenize_string
  rw [mkState_adv, mkState_size]
  rw [strLoopFuel_content s _ "" rest (p.advance '"') (by simp only [List.length_cons, List.length_append]; omega) h]
  rw [posAfter_cons]
  rfl

/-- `tokenize_string` hitting a literal newline: `StringUnterminated`,
newline left unconsumed. -/
theorem tokenize_string_mkState_unterminated (s rest : List Char) (p : Pos)
    (h : ∀ c ∈ s, c ≠ '"' ∧ c ≠ '\x00' ∧ c ≠ '\n') :
    (mkState ('"' :: (s ++ '\n' :: rest)) p).tokenize_string =
      (.error .StringUnterminated,
        mkState ('\n' :: rest) (posAfter p ('"' :: s))) := by
  unfold Lexer.tokenize_string
  rw [mkState_adv, mkState_size]
  rw [strLoopFuel_unterminated s _ "" rest (p.advance '"') (by simp only [List.length_cons, List.length_append]; omega) h]
  rw [posAfter_cons]

/-- `tokenize_string` hitting a null byte: `StringContainsNull`, null left
unconsumed. -/
theorem tokenize_string_mkState_null (s rest : List Char) (p : Pos)
    (h : ∀ c ∈ s, c ≠ '"' ∧ c ≠ '\x00' ∧ c ≠ '\n') :
    (mkState ('"' :: (s ++ '\x00' :: rest)) p).tokenize_string =
      (.error .StringContainsNull,
        mkState ('\x00' :: rest) (posAfter p ('"' :: s))) := by
  unfold Lexer.tokenize_string
  rw [mkState_adv, mkState_size]
  rw [strLoopFuel_null s _ "" rest (p.advance '"') (by simp only [List.length_cons, List.length_append]; omega) h]
  rw [posAfter_cons]

/-- `tokenize_string` running into end of input with no closing quote:
`StringContainsEof`. -/
theorem tokenize_string_mkState_eof (s : List Char) (p : Pos)
    (h : ∀ c ∈ s, c ≠ '"' ∧ c ≠ '\x00' ∧ c ≠ '\n') :
    (mkState ('"' :: s) p).tokenize_string =
      (.error .StringContainsEof, mkState [] (posAfter p ('"' :: s))) := by
  unfold Lexer.tokenize_string
  rw [mkState_adv, mkState_size]
  rw [strLoopFuel_eof s _ "" (p.advance '"') (by simp only [List.length_cons]; omega) h]
  rw [posAfter_cons]

theorem parseI64_digits (ds : List Char) (hne : ds ≠ [])
    (h : ∀ c ∈ ds, c.isDigit = true) :
    parseI64 (String.mk ds) =
      if digitsToNat ds ≤ i64Max then some ((digitsToNat ds : Int)) else none := by
  unfold parseI64
  rw [if_pos ?side]
  case side => exact ⟨by simpa using hne, by simpa [List.all_eq_true] using h⟩

/-- `tokenize_number` on a nonempty maximal digit run whose value fits in
an `i64`: the integer literal of its value, the run consumed. -/
theorem tokenize_number_mkState_ok (ds rest : List Char) (p : Pos)
    (hne : ds ≠ []) (h : ∀ c ∈ ds, c.isDigit = true)
    (hrest : ∀ c, rest.head? = some c → c.isDigit = false)
    (hv : digitsToNat ds ≤ i64Max) :
    (mkState (ds ++ rest) p).tokenize_number =
      (.ok (.IntLiteral (digitsToNat ds)), mkState rest (posAfter p ds)) := by
  unfold Lexer.tokenize_number
  rw [mkState_size]
  rw [numLoopFuel_digits ds _ "" rest p (by simp only [List.length_append]; omega) h hrest]
  dsimp only
  rw [show ("" : String).data ++ ds = ds from rfl]
  rw [parseI64_digits ds hne h, if_pos hv]

/-- `tokenize_number` on a nonempty maximal digit run whose value exceeds
`i64::MAX`: the overflow is reported as `InvalidChar '0'`. -/
theorem tokenize_number_mkState_overflow (ds rest : List Char) (p : Pos)
    (hne : ds ≠ []) (h : ∀ c ∈ ds, c.isDigit = true)
    (hrest : ∀ c, rest.head? = some c → c.isDigit = false)
    (hv : i64Max < digitsToNat ds) :
    (mkState (ds ++ rest) p).tokenize_number =
      (.error (.InvalidChar '0'), mkState rest (posAfter p ds)) := by
  unfold Lexer.tokenize_number
  rw [mkState_size]
  rw [numLoopFuel_digits ds _ "" rest p (by simp only [List.length_append]; omega) h hrest]
  dsimp only
  rw [show ("" : String).data ++ ds = ds from rfl]
  rw [parseI64_digits ds hne h, if_neg (by omega)]

/-! ## Decimal text of a natural number -/

theorem charOfNat_digit_toNat {k : Nat} (hk : k < 10) :
    (Char.ofNat (48 + k)).toNat = 48 + k := by
  interval_cases k <;> rfl

theorem charOfNat_digit_isDigit {k : Nat} (hk : k < 10) :
    (Char.ofNat (48 + k)).isDigit = true := by
  interval_cases k <;> rfl

theorem digitsToNat_from : ∀ (cs : List Char) (a : Nat),
    cs.foldl (fun x c => x * 10 + (c.toNat - 48)) a =
      a * 10 ^ cs.length + digitsToNat cs := by
  intro cs
  induction cs with
  | nil => intro a; simp [digitsToNat]
  | cons c cs ih =>
    intro a
    have h1 : (c :: cs).foldl (fun x c => x * 10 + (c.toNat - 48)) a =
        cs.foldl (fun x c => x * 10 + (c.toNat - 48)) (a * 10 + (c.toNat - 48)) := rfl
    have h2 : digitsToNat (c :: cs) =
        cs.foldl (fun x c => x * 10 + (c.toNat - 48)) (0 * 10 + (c.toNat - 48)) := rfl
    rw [h1, ih, h2, ih]
    simp only [List.length_cons]
    ring

theorem natToDecimalAux_val : ∀ (f n : Nat) (acc : List Char), n < 10 ^ f →
    digitsToNat (natToDecimalAux f n acc) =
      n * 10 ^ acc.length + digitsToNat acc := by
  intro f
  induction f with
  | zero =>
    intro n acc h
    have hn0 : n = 0 := by simpa using h
    simp [natToDecimalAux, hn0]
  | succ f ih =>
    intro n acc h
    have hmod : (Char.ofNat (48 + n % 10)).toNat = 48 + n % 10 :=
      charOfNat_digit_toNat (Nat.mod_lt _ (by omega))
    have hcons : digitsToNat (Char.ofNat (48 + n % 10) :: acc) =
        (n % 10) * 10 ^ acc.length + digitsToNat acc := by
      have h2 : digitsToNat (Char.ofNat (48 + n % 10) :: acc) =
          acc.foldl (fun x c => x * 10 + (c.toNat - 48))
            (0 * 10 + ((Char.ofNat (48 + n % 10)).toNat - 48)) := rfl
      rw [h2, digitsToNat_from, hmod]
      have hsub : 0 * 10 + (48 + n % 10 - 48) = n % 10 := by omega
      rw [hsub]
    simp only [natToDecimalAux]
    by_cases hn : n < 10
    · rw [if_pos hn, hcons, Nat.mod_eq_of_lt hn]
    · rw [if_neg hn]
      rw [ih (n / 10) _ (by rw [Nat.div_lt_iff_lt_mul (by omega)]; rw [pow_succ] at h; omega)]
      rw [hcons]
      simp only [List.length_cons]
      have hdm : n = 10 * (n / 10) + n % 10 := (Nat.div_add_mod n 10).symm
      calc n / 10 * 10 ^ (acc.length + 1) + (n % 10 * 10 ^ acc.length + digitsToNat acc)
          = (10 * (n / 10) + n % 10) * 10 ^ acc.length + digitsToNat acc := by ring
        _ = n * 10 ^ acc.length + digitsToNat acc := by rw [← hdm]

theorem natToDecimalAux_all_digits : ∀ (f n : Nat) (acc : List Char),
    (∀ c ∈ acc, c.isDigit = true) → ∀ c ∈ natToDecimalAux f n acc, c.isDigit = true := by
  intro f
  induction f with
  | zero => intro n acc hacc; exact hacc
  | succ f ih =>
    intro n acc hacc
    simp only [natToDecimalAux]
    by_cases hn : n < 10
    · rw [if_pos hn]
      intro c hc
      rcases List.mem_cons.mp hc with rfl | hc
      · exact charOfNat_digit_isDigit (Nat.mod_lt _ (by omega))
      · exact hacc c hc
    · rw [if_neg hn]
      refine ih (n / 10) _ ?_
      intro c hc
      rcases List.mem_cons.mp hc with rfl | hc
      · exact charOfNat_digit_isDigit (Nat.mod_lt _ (by omega))
      · exact hacc c hc

theorem natToDecimalAux_length : ∀ (f n : Nat) (acc : List Char), n < 10 ^ f → 0 < f →
    acc.length < (natToDecimalAux f n acc).length := by
  intro f
  induction f with
  | zero => intro n acc _ h; omega
  | succ f ih =>
    intro n acc h _
    simp only [natToDecimalAux]
    by_cases hn : n < 10
    · rw [if_pos hn]; simp
    · rw [if_neg hn]
      have hf : 0 < f := by
        by_contra hf0
        have : f = 0 := by omega
        rw [this] at h
        simp at h
        omega
      have := ih (n / 10) (Char.ofNat (48 + n % 10) :: acc)
        (by rw [Nat.div_lt_iff_lt_mul (by omega)]; rw [pow_succ] at h; omega) hf
      simp only [List.length_cons] at this
      omega

theorem nat_lt_ten_pow_succ (n : Nat) : n < 10 ^ (n + 1) :=
  lt_of_lt_of_le (Nat.lt_pow_self (by omega) n)
    (Nat.pow_le_pow_right (by omega) (by omega))

theorem natToDecimal_roundtrip (n : Nat) : digitsToNat (natToDecimal n) = n := by
  unfold natToDecimal
  rw [natToDecimalAux_val _ _ _ (nat_lt_ten_pow_succ n)]
  simp [digitsToNat]

theorem natToDecimal_all_digits (n : Nat) : ∀ c ∈ natToDecimal n, c.isDigit = true :=
  natToDecimalAux_all_digits _ _ _ (by simp)

theorem natToDecimal_ne_nil (n : Nat) : natToDecimal n ≠ [] := by
  have := natToDecimalAux_length (n + 1) n [] (nat_lt_ten_pow_succ n) (by omega)
  intro h
  rw [natToDecimal] at h
  rw [h] at this
  simp at this

/-! ## `next_token` on canonical inputs -/

theorem digit_dispatch {c : Char} (h : c.isDigit = true) :
    c ≠ '{' ∧ c ≠ '}' ∧ c ≠ '"' ∧ ('0' ≤ c ∧ c ≤ '9') := by
  refine ⟨?_, ?_, ?_, (isDigit_iff_range c).mp h⟩ <;>
    (intro he; subst he; exact absurd h (by decide))

/-- A full `next_token` call on a well-formed string literal `"s"`. -/
theorem next_token_string_content (s rest : List Char) (p : Pos)
    (h : ∀ c ∈ s, c ≠ '"' ∧ c ≠ '\x00' ∧ c ≠ '\n') :
    (mkState ('"' :: (s ++ '"' :: rest)) p).next_token =
      (.ok ⟨.StringLiteral (String.mk s), ⟨p, posAfter p ('"' :: (s ++ ['"']))⟩⟩,
        mkState rest (posAfter p ('"' :: (s ++ ['"'])))) := by
  unfold Lexer.next_token
  rw [skip_whitespace_of_not_ws (mkState_current_cons '"' _ p) (by decide)]
  dsimp only
  simp only [mkState_current_cons, mkState_pos]
  rw [if_neg (by decide), if_neg (by decide), if_pos trivial]
  rw [tokenize_string_mkState_content s rest p h]
  dsimp only
  rw [mkState_pos]

/-- A full `next_token` call on a string literal interrupted by a literal
newline. -/
theorem next_token_string_unterminated (s rest : List Char) (p : Pos)
    (h : ∀ c ∈ s, c ≠ '"' ∧ c ≠ '\x00' ∧ c ≠ '\n') :
    (mkState ('"' :: (s ++ '\n' :: rest)) p).next_token =
      (.error .StringUnterminated, mkState ('\n' :: rest) (posAfter p ('"' :: s))) := by
  unfold Lexer.next_token
  rw [skip_whitespace_of_not_ws (mkState_current_cons '"' _ p) (by decide)]
  dsimp only
  simp only [mkState_current_cons, mkState_pos]
  rw [if_neg (by decide), if_neg (by decide), if_pos trivial]
  rw [tokenize_string_mkState_unterminated s rest p h]

/-- A full `next_token` call on a string literal containing a null byte. -/
theorem next_token_string_null (s rest : List Char) (p : Pos)
    (h : ∀ c ∈ s, c ≠ '"' ∧ c ≠ '\x00' ∧ c ≠ '\n') :
    (mkState ('"' :: (s ++ '\x00' :: rest)) p).next_token =
      (.error .StringContainsNull, mkState ('\x00' :: rest) (posAfter p ('"' :: s))) := by
  unfold Lexer.next_token
  rw [skip_whitespace_of_not_ws (mkState_current_cons '"' _ p) (by decide)]
  dsimp only
  simp only [mkState_current_cons, mkState_pos]
  rw [if_neg (by decide), if_neg (by decide), if_pos trivial]
  rw [tokenize_string_mkState_null s rest p h]

/-- A full `next_token` call on a string literal never closed before the
end of input. -/
theorem next_token_string_eof (s : List Char) (p : Pos)
    (h : ∀ c ∈ s, c ≠ '"' ∧ c ≠ '\x00' ∧ c ≠ '\n') :
    (mkState ('"' :: s) p).next_token =
      (.error .StringContainsEof, mkState [] (posAfter p ('"' :: s))) := by
  unfold Lexer.next_token
  rw [skip_whitespace_of_not_ws (mkState_current_cons '"' _ p) (by decide)]
  dsimp only
  simp only [mkState_current_cons, mkState_pos]
  rw [if_neg (by decide), if_neg (by decide), if_pos trivial]
  rw [tokenize_string_mkState_eof s p h]

/-- A full `next_token` call on a maximal digit run whose value fits in an
`i64`. -/
theorem next_token_number_ok (ds rest : List Char) (p : Pos)
    (hne : ds ≠ []) (hd : ∀ c ∈ ds, c.isDigit = true)
    (hrest : ∀ c, rest.head? = some c → c.isDigit = false)
    (hv : digitsToNat ds ≤ i64Max) :
    (mkState (ds ++ rest) p).next_token =
      (.ok ⟨.IntLiteral (digitsToNat ds), ⟨p, posAfter p ds⟩⟩,
        mkState rest (posAfter p ds)) := by
  cases ds with
  | nil => exact absurd rfl hne
  | cons d ds' =>
    have hdd : d.isDigit = true := hd d (by simp)
    obtain ⟨hb1, hb2, hb3, hb4⟩ := digit_dispatch hdd
    unfold Lexer.next_token
    rw [List.cons_append]
    rw [skip_whitespace_of_not_ws (mkState_current_cons d _ p) (digit_not_whitespace hdd)]
    dsimp only
    simp only [mkState_current_cons, mkState_pos]
    rw [if_neg hb1, if_neg hb2, if_neg hb3, if_pos hb4]
    rw [← List.cons_append]
    rw [tokenize_number_mkState_ok (d :: ds') rest p hne hd hrest hv]
    dsimp only
    rw [mkState_pos]

/-- A full `next_token` call on a maximal digit run whose value overflows:
the `InvalidChar '0'` report. -/
theorem next_token_number_overflow (ds rest : List Char) (p : Pos)
    (hne : ds ≠ []) (hd : ∀ c ∈ ds, c.isDigit = true)
    (hrest : ∀ c, rest.head? = some c → c.isDigit = false)
    (hv : i64Max < digitsToNat ds) :
    (mkState (ds ++ rest) p).next_token =
      (.error (.InvalidChar '0'), mkState rest (posAfter p ds)) := by
  cases ds with
  | nil => exact absurd rfl hne
  | cons d ds' =>
    have hdd : d.isDigit = true := hd d (by simp)
    obtain ⟨hb1, hb2, hb3, hb4⟩ := digit_dispatch hdd
    unfold Lexer.next_token
    rw [List.cons_append]
    rw [skip_whitespace_of_not_ws (mkState_current_cons d _ p) (digit_not_whitespace hdd)]
    dsimp only
    simp only [mkState_current_cons, mkState_pos]
    rw [if_neg hb1, if_neg hb2, if_neg hb3, if_pos hb4]
    rw [← List.cons_append]
    rw [tokenize_number_mkState_overflow (d :: ds') rest p hne hd hrest hv]

theorem digit_ne_newline {c : Char} (h : c.isDigit = true) : c ≠ '\n' := by
  intro he; subst he; exact absurd h (by decide)

/-! ## The claims -/

/-- C1: the spec says a `;` is consumed and emitted as the semicolon
punctuation token; the code's dispatch has no `;` arm at all, so the very
first call on input `";"` (and on `" ;"`, whose next non-whitespace
character is `;`) fails with `InvalidChar(';')` and consumes nothing —
the `Semicolon` token kind is never produced. -/
theorem claim_C1_semicolon_not_lexed :
    (Lexer.new [';']).next_token =
      (.error (.InvalidChar ';'), ⟨[], some ';', ⟨0, 1, 0⟩, none⟩) ∧
    (Lexer.new [' ', ';']).next_token.1 = .error (.InvalidChar ';') := by
  decide

/-- C2 (counterexample): on input `"é"` (`é` = U+00E9, two UTF-8 bytes) the
first call scans the whole string literal; at that point the tracked offset
is 3 (three characters consumed) while the number of source bytes consumed
is 4, so the offset is not a byte offset. -/
theorem claim_C2_counterexample :
    ((Lexer.new ['"', Char.ofNat 233, '"']).next_token.1 =
      .ok ⟨.StringLiteral (String.mk [Char.ofNat 233]), ⟨⟨0, 1, 0⟩, ⟨3, 1, 3⟩⟩⟩) ∧
    (runN 1 (Lexer.new ['"', Char.ofNat 233, '"'])).pos.offset = 3 ∧
    utf8Len ['"', Char.ofNat 233, '"'] -
      utf8Len (remaining (runN 1 (Lexer.new ['"', Char.ofNat 233, '"']))) = 4 ∧
    (3 : Nat) ≠ 4 := by
  decide

/-- C2 (amended): at every point reachable by `next_token` calls, the
tracked offset equals the number of characters consumed so far (input
length minus characters still unread) — a character offset, which agrees
with the byte offset only when every consumed character is one byte. -/
theorem claim_C2_offset_counts_chars (input : List Char) (k : Nat) :
    (runN k (Lexer.new input)).pos.offset +
      (remaining (runN k (Lexer.new input))).length = input.length := by
  have h := Sm_runN k (Lexer.new input)
  unfold Sm at h
  rw [h, new_eq_mkState, mkState_pos, remaining_mkState]
  simp

/-- C3: advancing past a newline sets the column to 0 and increments the
line; advancing past any other character increments column and offset by 1;
and on input `a\nb` the token for `b` starts at line 2, column 0. -/
theorem claim_C3_position_advance :
    (∀ p : Pos, (p.advance '\n').col = 0 ∧ (p.advance '\n').line = p.line + 1) ∧
    (∀ (p : Pos) (c : Char), c ≠ '\n' →
      (p.advance c).col = p.col + 1 ∧ (p.advance c).offset = p.offset + 1) ∧
    ((Lexer.new ['a', '\n', 'b']).next_token.2.next_token.1 =
      .ok ⟨.Ident "b", ⟨⟨2, 2, 0⟩, ⟨3, 2, 1⟩⟩⟩) := by
  refine ⟨?_, ?_, by decide⟩
  · intro p
    simp [Pos.advance]
  · intro p c h
    simp [Pos.advance, h]

theorem claim_C3_witness :
    (((⟨0, 1, 0⟩ : Pos).advance '\n').col = 0 ∧
      ((⟨0, 1, 0⟩ : Pos).advance '\n').line = 1 + 1) ∧
    ((⟨5, 7, 3⟩ : Pos).advance 'b').col = 3 + 1 ∧
    ((⟨5, 7, 3⟩ : Pos).advance 'b').offset = 5 + 1 :=
  ⟨claim_C3_position_advance.1 ⟨0, 1, 0⟩,
    claim_C3_position_advance.2.1 ⟨5, 7, 3⟩ 'b' (by decide)⟩

/-- C4: wrapping any run of characters free of `"`, the null byte and the
newline in double quotes lexes to a single string-literal token whose
payload is exactly that run (no escape processing — see the witness, whose
content contains a backslash kept literally), followed by end-of-input. -/
theorem claim_C4_string_literal_exact (s : List Char)
    (h : ∀ c ∈ s, c ≠ '"' ∧ c ≠ '\x00' ∧ c ≠ '\n') :
    (Lexer.new ('"' :: (s ++ ['"']))).next_token =
      (.ok ⟨.StringLiteral (String.mk s),
          ⟨⟨0, 1, 0⟩, posAfter ⟨0, 1, 0⟩ ('"' :: (s ++ ['"']))⟩⟩,
        mkState [] (posAfter ⟨0, 1, 0⟩ ('"' :: (s ++ ['"'])))) ∧
    ((Lexer.new ('"' :: (s ++ ['"']))).next_token.2.next_token.1 =
      .ok ⟨.Eof, ⟨posAfter ⟨0, 1, 0⟩ ('"' :: (s ++ ['"'])),
        posAfter ⟨0, 1, 0⟩ ('"' :: (s ++ ['"']))⟩⟩) := by
  have h1 : (Lexer.new ('"' :: (s ++ ['"']))).next_token =
      (.ok ⟨.StringLiteral (String.mk s),
          ⟨⟨0, 1, 0⟩, posAfter ⟨0, 1, 0⟩ ('"' :: (s ++ ['"']))⟩⟩,
        mkState [] (posAfter ⟨0, 1, 0⟩ ('"' :: (s ++ ['"'])))) := by
    rw [new_eq_mkState]
    exact next_token_string_content s [] ⟨0, 1, 0⟩ h
  refine ⟨h1, ?_⟩
  rw [h1]
  rw [next_token_of_none (mkState_current_nil _)]
  simp [mkState_pos]

theorem claim_C4_witness :
    (Lexer.new ('"' :: (['a', '\\', 'b'] ++ ['"']))).next_token =
      (.ok ⟨.StringLiteral (String.mk ['a', '\\', 'b']),
          ⟨⟨0, 1, 0⟩, posAfter ⟨0, 1, 0⟩ ('"' :: (['a', '\\', 'b'] ++ ['"']))⟩⟩,
        mkState [] (posAfter ⟨0, 1, 0⟩ ('"' :: (['a', '\\', 'b'] ++ ['"'])))) ∧
    ((Lexer.new ('"' :: (['a', '\\', 'b'] ++ ['"']))).next_token.2.next_token.1 =
      .ok ⟨.Eof, ⟨posAfter ⟨0, 1, 0⟩ ('"' :: (['a', '\\', 'b'] ++ ['"'])),
        posAfter ⟨0, 1, 0⟩ ('"' :: (['a', '\\', 'b'] ++ ['"']))⟩⟩) :=
  claim_C4_string_literal_exact ['a', '\\', 'b'] (by decide)

/-- C5: a string literal with a literal newline before its closing quote
fails with `StringUnterminated`; one with a null byte fails with
`StringContainsNull`; one never closed before end-of-input fails with
`StringContainsEof` — each as an error, not a token. -/
theorem claim_C5_string_errors (s rest : List Char)
    (h : ∀ c ∈ s, c ≠ '"' ∧ c ≠ '\x00' ∧ c ≠ '\n') :
    ((Lexer.new ('"' :: (s ++ '\n' :: rest))).next_token =
      (.error .StringUnterminated,
        mkState ('\n' :: rest) (posAfter ⟨0, 1, 0⟩ ('"' :: s)))) ∧
    ((Lexer.new ('"' :: (s ++ '\x00' :: rest))).next_token =
      (.error .StringContainsNull,
        mkState ('\x00' :: rest) (posAfter ⟨0, 1, 0⟩ ('"' :: s)))) ∧
    ((Lexer.new ('"' :: s)).next_token =
      (.error .StringContainsEof, mkState [] (posAfter ⟨0, 1, 0⟩ ('"' :: s)))) := by
  refine ⟨?_, ?_, ?_⟩
  · rw [new_eq_mkState]
    exact next_token_string_unterminated s rest ⟨0, 1, 0⟩ h
  · rw [new_eq_mkState]
    exact next_token_string_null s rest ⟨0, 1, 0⟩ h
  · rw [new_eq_mkState]
    exact next_token_string_eof s ⟨0, 1, 0⟩ h

theorem claim_C5_witness :
    ((Lexer.new ('"' :: (['h', 'i'] ++ '\n' :: []))).next_token =
      (.error .StringUnterminated,
        mkState ('\n' :: []) (posAfter ⟨0, 1, 0⟩ ('"' :: ['h', 'i'])))) ∧
    ((Lexer.new ('"' :: (['h', 'i'] ++ '\x00' :: []))).next_token =
      (.error .StringContainsNull,
        mkState ('\x00' :: []) (posAfter ⟨0, 1, 0⟩ ('"' :: ['h', 'i'])))) ∧
    ((Lexer.new ('"' :: ['h', 'i'])).next_token =
      (.error .StringContainsEof, mkState [] (posAfter ⟨0, 1, 0⟩ ('"' :: ['h', 'i'])))) :=
  claim_C5_string_errors ['h', 'i'] [] (by decide)

/-- C6: for every `n` with `0 ≤ n ≤ i64::MAX`, lexing the decimal text of
`n` yields the single integer-literal token of value `n` whose span covers
exactly the digit run (offsets 0 to its length), followed by end-of-input;
a maximal digit run whose value exceeds `i64::MAX` surfaces the
invalid-character error instead. -/
theorem claim_C6_int_literal :
    (∀ n : Nat, n ≤ i64Max →
      (Lexer.new (natToDecimal n)).next_token =
        (.ok ⟨.IntLiteral ((n : Nat) : Int),
            ⟨⟨0, 1, 0⟩, ⟨(natToDecimal n).length, 1, (natToDecimal n).length⟩⟩⟩,
          mkState [] ⟨(natToDecimal n).length, 1, (natToDecimal n).length⟩) ∧
      ((Lexer.new (natToDecimal n)).next_token.2.next_token.1 =
        .ok ⟨.Eof, ⟨⟨(natToDecimal n).length, 1, (natToDecimal n).length⟩,
          ⟨(natToDecimal n).length, 1, (natToDecimal n).length⟩⟩⟩)) ∧
    (∀ ds : List Char, ds ≠ [] → (∀ c ∈ ds, c.isDigit = true) →
      i64Max < digitsToNat ds →
      (Lexer.new ds).next_token.1 = .error (.InvalidChar '0')) := by
  constructor
  · intro n hn
    have hnn : ∀ c ∈ natToDecimal n, c ≠ '\n' :=
      fun c hc => digit_ne_newline (natToDecimal_all_digits n c hc)
    have hpos : posAfter ⟨0, 1, 0⟩ (natToDecimal n) =
        ⟨(natToDecimal n).length, 1, (natToDecimal n).length⟩ := by
      rw [posAfter_no_newline _ _ hnn]
      simp
    have hmain : (Lexer.new (natToDecimal n)).next_token =
        (.ok ⟨.IntLiteral ((n : Nat) : Int),
            ⟨⟨0, 1, 0⟩, ⟨(natToDecimal n).length, 1, (natToDecimal n).length⟩⟩⟩,
          mkState [] ⟨(natToDecimal n).length, 1, (natToDecimal n).length⟩) := by
      rw [new_eq_mkState]
      have h0 : natToDecimal n = natToDecimal n ++ [] := by simp
      rw [h0]
      have := next_token_number_ok (natToDecimal n) [] ⟨0, 1, 0⟩
        (natToDecimal_ne_nil n) (natToDecimal_all_digits n)
        (by intro c hc; simp at hc)
        (by rw [natToDecimal_roundtrip]; exact hn)
      rw [this, natToDecimal_roundtrip, hpos]
      simp
    refine ⟨hmain, ?_⟩
    rw [hmain]
    rw [next_token_of_none (mkState_current_nil _)]
    simp [mkState_pos]
  · intro ds hne hd hv
    rw [new_eq_mkState]
    have h0 : ds = ds ++ [] := by simp
    rw [h0]
    have := next_token_number_overflow ds [] ⟨0, 1, 0⟩ hne hd
      (by intro c hc; simp at hc) hv
    rw [this]

theorem claim_C6_witness :
    ((Lexer.new (natToDecimal 42)).next_token =
      (.ok ⟨.IntLiteral ((42 : Nat) : Int),
          ⟨⟨0, 1, 0⟩, ⟨(natToDecimal 42).length, 1, (natToDecimal 42).length⟩⟩⟩,
        mkState [] ⟨(natToDecimal 42).length, 1, (natToDecimal 42).length⟩) ∧
      ((Lexer.new (natToDecimal 42)).next_token.2.next_token.1 =
        .ok ⟨.Eof, ⟨⟨(natToDecimal 42).length, 1, (natToDecimal 42).length⟩,
          ⟨(natToDecimal 42).length, 1, (natToDecimal 42).length⟩⟩⟩)) ∧
    ((Lexer.new "9223372036854775808".toList).next_token.1 =
      .error (.InvalidChar '0')) :=
  ⟨claim_C6_int_literal.1 42 (by decide),
    claim_C6_int_literal.2 "9223372036854775808".toList (by decide) (by decide)
      (by decide)⟩

/-- C7: the exact-cased keyword table is consulted first (`class` lexes as
the keyword), and only on a miss is the run classified by its first
character's case: `Class` is a class-name (not the keyword), `foo` an
identifier, `Foo` a class-name, `_foo` an identifier. -/
theorem claim_C7_keyword_casing :
    ((Lexer.new "Class".toList).next_token.1 =
      .ok ⟨.ClassName "Class", ⟨⟨0, 1, 0⟩, ⟨5, 1, 5⟩⟩⟩) ∧
    ((Lexer.new "foo".toList).next_token.1 =
      .ok ⟨.Ident "foo", ⟨⟨0, 1, 0⟩, ⟨3, 1, 3⟩⟩⟩) ∧
    ((Lexer.new "Foo".toList).next_token.1 =
      .ok ⟨.ClassName "Foo", ⟨⟨0, 1, 0⟩, ⟨3, 1, 3⟩⟩⟩) ∧
    ((Lexer.new "_foo".toList).next_token.1 =
      .ok ⟨.Ident "_foo", ⟨⟨0, 1, 0⟩, ⟨4, 1, 4⟩⟩⟩) ∧
    ((Lexer.new "class".toList).next_token.1 =
      .ok ⟨.Class, ⟨⟨0, 1, 0⟩, ⟨5, 1, 5⟩⟩⟩) ∧
    (∀ s : String, s ≠ "true" → s ≠ "false" → s ≠ "if" → s ≠ "fi" → s ≠ "else" →
      s ≠ "while" → s ≠ "case" → s ≠ "esac" → s ≠ "isvoid" → s ≠ "let" →
      s ≠ "loop" → s ≠ "new" → s ≠ "not" → s ≠ "of" → s ≠ "pool" → s ≠ "then" →
      s ≠ "in" → s ≠ "inherits" → s ≠ "class" →
      keywordOrIdent s = if firstCharUppercase s then .ClassName s else .Ident s) :=
  ⟨by decide, by decide, by decide, by decide, by decide, keywordOrIdent_miss⟩

theorem claim_C7_witness :
    keywordOrIdent "Zebra" =
      if firstCharUppercase "Zebra" then .ClassName "Zebra" else .Ident "Zebra" :=
  claim_C7_keyword_casing.2.2.2.2.2 "Zebra" (by decide) (by decide) (by decide)
    (by decide) (by decide) (by decide) (by decide) (by decide) (by decide)
    (by decide) (by decide) (by decide) (by decide) (by decide) (by decide)
    (by decide) (by decide) (by decide) (by decide)

/-- C8: when the character after whitespace skipping is not end-of-input
and not a recognized token start, `next_token` fails with `InvalidChar` of
exactly that character and does not consume it: the state is the one at the
dispatch point, with the same current character and position; on `5 + 3`
the call after the integer literal `5` surfaces `InvalidChar('+')`. -/
theorem claim_C8_invalid_char_unconsumed :
    (∀ (l : Lexer) (c : Char), l.skip_whitespace.current = some c →
      c ≠ '{' → c ≠ '}' → c ≠ '"' → ¬('0' ≤ c ∧ c ≤ '9') →
      ¬(('a' ≤ c ∧ c ≤ 'z') ∨ ('A' ≤ c ∧ c ≤ 'Z') ∨ c = '_') →
      l.next_token = (.error (.InvalidChar c), l.skip_whitespace) ∧
      l.next_token.2.current = some c ∧
      l.next_token.2.pos = l.skip_whitespace.pos) ∧
    ((Lexer.new "5 + 3".toList).next_token.1 =
      .ok ⟨.IntLiteral 5, ⟨⟨0, 1, 0⟩, ⟨1, 1, 1⟩⟩⟩) ∧
    ((Lexer.new "5 + 3".toList).next_token.2.next_token.1 =
      .error (.InvalidChar '+')) ∧
    ((Lexer.new "5 + 3".toList).next_token.2.next_token.2.current = some '+') ∧
    ((Lexer.new "5 + 3".toList).next_token.2.next_token.2.pos = ⟨2, 1, 2⟩) := by
  refine ⟨?_, by decide, by decide, by decide, by decide⟩
  intro l c h h1 h2 h3 h4 h5
  have he := next_token_invalid h h1 h2 h3 h4 h5
  refine ⟨he, ?_, ?_⟩
  · rw [he]
    exact h
  · rw [he]

theorem claim_C8_witness :
    (Lexer.new ['+']).next_token =
      (.error (.InvalidChar '+'), (Lexer.new ['+']).skip_whitespace) ∧
    (Lexer.new ['+']).next_token.2.current = some '+' ∧
    (Lexer.new ['+']).next_token.2.pos = (Lexer.new ['+']).skip_whitespace.pos :=
  claim_C8_invalid_char_unconsumed.1 (Lexer.new ['+']) '+' (by decide) (by decide)
    (by decide) (by decide) (by decide) (by decide)

/-- C9: once `current` is exhausted, `next_token` returns the end-of-input
token with a zero-width span at the current position and leaves the state
unchanged, so the call is idempotent and never errors. -/
theorem claim_C9_eof_idempotent (l : Lexer) (h : l.current = none) :
    l.next_token = (.ok ⟨.Eof, ⟨l.pos, l.pos⟩⟩, l) ∧
    l.next_token.2.next_token = l.next_token := by
  have h1 := next_token_of_none h
  refine ⟨h1, ?_⟩
  rw [h1]
  dsimp only
  exact h1

theorem claim_C9_witness :
    (Lexer.new []).next_token =
      (.ok ⟨.Eof, ⟨⟨0, 1, 0⟩, ⟨0, 1, 0⟩⟩⟩, Lexer.new []) ∧
    (Lexer.new []).next_token.2.next_token = (Lexer.new []).next_token :=
  claim_C9_eof_idempotent (Lexer.new []) rfl

/-- C10: every successful non-end-of-input call strictly increases the
position offset (it consumes at least one character), and consequently from
every state a finite number of calls reaches the end-of-input token or an
error, so pulling tokens terminates on every finite input. -/
theorem claim_C10_progress :
    (∀ (l : Lexer) (t : Token) (l' : Lexer), l.next_token = (.ok t, l') →
      t.token_type ≠ .Eof → l.pos.offset < l'.pos.offset) ∧
    (∀ l : Lexer, ∃ k : Nat, isStop ((runN k l).next_token).1 = true) :=
  ⟨fun _ _ _ h hne => next_token_ok_progress h hne,
    fun l => lex_terminates (remaining l).length l (le_refl _)⟩

theorem claim_C10_witness :
    (Lexer.new ['{']).pos.offset < (⟨[], none, ⟨1, 1, 1⟩, none⟩ : Lexer).pos.offset :=
  claim_C10_progress.1 (Lexer.new ['{']) ⟨.LBrace, ⟨⟨0, 1, 0⟩, ⟨1, 1, 1⟩⟩⟩
    ⟨[], none, ⟨1, 1, 1⟩, none⟩ (by decide) (by decide)

end CoolRs
